import Mathlib

/-!
Shallow embedding of the domain-filter program (src/main.cpp).

A `Domain` stores a domain name verbatim as a list of characters
(std::string in the source).  `Domain.lt` embeds `Domain::operator<`:
`std::lexicographical_compare` over the reversed names with the custom
character comparator `(l == '.' || l < r) && (r != '.')`.
`Domain.IsSubdomain` embeds `Domain::IsSubdomain`: the size guard plus
`('.' + name).ends_with("." + other.name)`.

`DomainChecker` stores the forbidden list; its constructor runs
`PrepareForbiddenDomains` (std::sort with `operator<`, then std::unique
with the predicate `lhs.IsSubdomain(rhs) || rhs.IsSubdomain(lhs)`,
which drops an element when it relates to the last kept element).
`DomainChecker.IsForbidden` embeds the upper-bound lookup: the element
just before `std::upper_bound(forbidden, q)` is the last element of the
maximal prefix of elements not greater than `q`; if no such element
exists the answer is `false`, otherwise it is `q.IsSubdomain` of it.

`std::sort` is modelled by insertion sort with the non-strict relation
induced by `Domain.lt`; since that order is strictly total on domain
names, the sorted permutation is unique, so the choice of algorithm is
immaterial.  `std::upper_bound` on a sorted range is modelled by its
contract, the boundary of the partition `fun x => !(Domain.lt q x)`.
-/

namespace DomainFilter

/-- The character comparator used by `Domain::operator<` in the source:
`[](char l, char r) { return (l == '.' || l < r) && (r != '.'); }`. -/
def charLt (l r : Char) : Bool :=
  (l == '.' || decide (l < r)) && (r != '.')

/-- `std::lexicographical_compare` with comparator `charLt` (the source
applies it to the reversed domain names via rbegin/rend). -/
def lexLt : List Char → List Char → Bool
  | _, [] => false
  | [], _ :: _ => true
  | l :: ls, r :: rs =>
    if charLt l r then true
    else if charLt r l then false
    else lexLt ls rs

/-- `class Domain`: one domain name, stored verbatim
(`domain_name_` in the source; a string modelled as its character list). -/
structure Domain where
  domain_name : List Char
deriving DecidableEq, Repr

/-- `Domain::Domain(std::string_view)`: stores the string verbatim. -/
def Domain.ofString (s : String) : Domain :=
  ⟨s.toList⟩

/-- `Domain::operator<`: compare the reversed names lexicographically
with `charLt`. -/
def Domain.lt (a b : Domain) : Bool :=
  lexLt a.domain_name.reverse b.domain_name.reverse

/-- The non-strict order induced by `Domain.lt` (what `std::sort` and
`std::upper_bound` guarantee about consecutive elements). -/
def Domain.le (a b : Domain) : Prop :=
  Domain.lt b a = false

instance : DecidableRel Domain.le :=
  fun a b => inferInstanceAs (Decidable (Domain.lt b a = false))

/-- `Domain::IsSubdomain`: `domain_name_.size() >= other.size() &&
('.' + domain_name_).ends_with('.' + other.domain_name_)`. -/
def Domain.IsSubdomain (d other : Domain) : Bool :=
  decide (other.domain_name.length ≤ d.domain_name.length) &&
  List.isSuffixOf ('.' :: other.domain_name) ('.' :: d.domain_name)

/-- The binary predicate passed to `std::unique` in
`PrepareForbiddenDomains`:
`lhs.IsSubdomain(rhs) || rhs.IsSubdomain(lhs)`. -/
def uniquePred (lhs rhs : Domain) : Bool :=
  lhs.IsSubdomain rhs || rhs.IsSubdomain lhs

/-- The scanning pass of `std::unique`: `last` is the most recently kept
element; the current element is dropped when `uniquePred last current`
holds, otherwise it is kept and becomes the new `last`. -/
def uniqueFrom : Domain → List Domain → List Domain
  | _, [] => []
  | last, y :: ys =>
    if uniquePred last y then uniqueFrom last ys
    else y :: uniqueFrom y ys

/-- `std::unique` over a whole list: the first element is always kept. -/
def uniqueDomains : List Domain → List Domain
  | [] => []
  | x :: xs => x :: uniqueFrom x xs

/-- `std::sort(forbidden_domains_.begin(), .end())` with
`Domain::operator<`; modelled as insertion sort by the induced
non-strict order. -/
def sortDomains (l : List Domain) : List Domain :=
  List.insertionSort Domain.le l

/-- `DomainChecker::PrepareForbiddenDomains`: sort, then erase the tail
returned by `std::unique` with `uniquePred`. -/
def PrepareForbiddenDomains (l : List Domain) : List Domain :=
  uniqueDomains (sortDomains l)

/-- `class DomainChecker`: owns the normalized forbidden list
(`forbidden_domains_`). -/
structure DomainChecker where
  forbidden_domains : List Domain
deriving DecidableEq, Repr

/-- `DomainChecker::DomainChecker(begin, end)`: copy the input range and
run `PrepareForbiddenDomains`. -/
def DomainChecker.ofList (l : List Domain) : DomainChecker :=
  ⟨PrepareForbiddenDomains l⟩

/-- `DomainChecker::IsForbidden`: `std::upper_bound` for the query, then
`false` when it is `begin()`, else `IsSubdomain` of the element just
before it.  On the sorted list, the elements before the upper bound are
exactly the maximal prefix of elements `x` with `!(q < x)`, so the
candidate is that prefix's last element. -/
def DomainChecker.IsForbidden (c : DomainChecker) (q : Domain) : Bool :=
  match (c.forbidden_domains.takeWhile (fun x => !(Domain.lt q x))).getLast? with
  | none => false
  | some cand => q.IsSubdomain cand

/-- The query loop of `main` / `TestIsForbidden`: for each query in
order emit `"Bad"` when forbidden and `"Good"` otherwise. -/
def runQueries (c : DomainChecker) (qs : List Domain) : List String :=
  qs.map (fun d => if c.IsForbidden d then "Bad" else "Good")

/-! ### The character comparator is a strict total order with `'.'` minimal -/

theorem charLt_iff {a b : Char} :
    charLt a b = true ↔ ((a = '.' ∨ a < b) ∧ b ≠ '.') := by
  simp [charLt]

theorem charLt_eq_false_iff {a b : Char} :
    charLt a b = false ↔ ¬((a = '.' ∨ a < b) ∧ b ≠ '.') := by
  rw [← charLt_iff]
  cases charLt a b <;> simp

theorem charLt_irrefl (a : Char) : charLt a a = false := by
  rw [charLt_eq_false_iff]
  rintro ⟨h1 | h1, h2⟩
  · exact h2 h1
  · exact lt_irrefl a h1

theorem charLt_asymm {a b : Char} (h : charLt a b = true) : charLt b a = false := by
  rw [charLt_iff] at h
  rw [charLt_eq_false_iff]
  rintro ⟨hb | hb, ha⟩
  · exact h.2 hb
  · rcases h.1 with h1 | h1
    · exact ha h1
    · exact lt_asymm h1 hb

theorem charLt_trans {a b c : Char} (h1 : charLt a b = true) (h2 : charLt b c = true) :
    charLt a c = true := by
  rw [charLt_iff] at h1 h2 ⊢
  refine ⟨?_, h2.2⟩
  rcases h1.1 with ha | ha
  · exact Or.inl ha
  · rcases h2.1 with hb | hb
    · exact absurd hb h1.2
    · exact Or.inr (lt_trans ha hb)

theorem charLt_connex {a b : Char} (h1 : charLt a b = false) (h2 : charLt b a = false) :
    a = b := by
  rw [charLt_eq_false_iff] at h1 h2
  by_cases ha : a = '.'
  · by_cases hb : b = '.'
    · rw [ha, hb]
    · exact absurd ⟨Or.inl ha, hb⟩ h1
  · by_cases hb : b = '.'
    · exact absurd ⟨Or.inl hb, ha⟩ h2
    · have hab : ¬ a < b := fun h => h1 ⟨Or.inr h, hb⟩
      have hba : ¬ b < a := fun h => h2 ⟨Or.inr h, ha⟩
      exact le_antisymm (le_of_not_lt hba) (le_of_not_lt hab)

/-! ### `lexLt` is a strict total order on character lists -/

theorem lexLt_nil_right (l : List Char) : lexLt l [] = false := by
  cases l <;> rfl

theorem lexLt_nil_left (a : Char) (l : List Char) : lexLt [] (a :: l) = true := rfl

theorem lexLt_cons_cons (a b : Char) (as bs : List Char) :
    lexLt (a :: as) (b :: bs) =
      if charLt a b then true else if charLt b a then false else lexLt as bs := rfl

theorem lexLt_irrefl : ∀ l : List Char, lexLt l l = false
  | [] => rfl
  | a :: as => by
    rw [lexLt_cons_cons, charLt_irrefl]
    simpa using lexLt_irrefl as

theorem lexLt_asymm : ∀ {x y : List Char}, lexLt x y = true → lexLt y x = false
  | x, [], h => by rw [lexLt_nil_right] at h; exact absurd h (by simp)
  | [], _ :: _, _ => lexLt_nil_right _
  | a :: as, b :: bs, h => by
    rw [lexLt_cons_cons] at h
    rw [lexLt_cons_cons]
    by_cases hab : charLt a b = true
    · rw [charLt_asymm hab, hab]
      simp
    · rw [Bool.eq_false_iff.mpr hab] at h
      by_cases hba : charLt b a = true
      · rw [hba] at h
        simp at h
      · rw [Bool.eq_false_iff.mpr hba] at h
        rw [Bool.eq_false_iff.mpr hba, Bool.eq_false_iff.mpr hab]
        simpa using lexLt_asymm (by simpa using h)

theorem lexLt_trans : ∀ {x y z : List Char},
    lexLt x y = true → lexLt y z = true → lexLt x z = true
  | _, y, [], _, h2 => by rw [lexLt_nil_right] at h2; exact absurd h2 (by simp)
  | [], _ :: _, _ :: _, _, _ => rfl
  | _ :: _, [], _ :: _, h1, _ => by
    rw [lexLt_nil_right] at h1; exact absurd h1 (by simp)
  | a :: as, b :: bs, c :: cs, h1, h2 => by
    rw [lexLt_cons_cons] at h1 h2
    rw [lexLt_cons_cons]
    by_cases hab : charLt a b = true
    · by_cases hbc : charLt b c = true
      · rw [charLt_trans hab hbc]; simp
      · by_cases hcb : charLt c b = true
        · rw [Bool.eq_false_iff.mpr hbc, hcb] at h2
          simp at h2
        · have hbceq : b = c :=
            charLt_connex (Bool.eq_false_iff.mpr hbc) (Bool.eq_false_iff.mpr hcb)
          rw [← hbceq, hab]
          simp
    · by_cases hba : charLt b a = true
      · rw [Bool.eq_false_iff.mpr hab, hba] at h1
        simp at h1
      · have habeq : a = b :=
          charLt_connex (Bool.eq_false_iff.mpr hab) (Bool.eq_false_iff.mpr hba)
        rw [Bool.eq_false_iff.mpr hab, Bool.eq_false_iff.mpr hba] at h1
        simp at h1
        by_cases hbc : charLt b c = true
        · rw [habeq, hbc]; simp
        · by_cases hcb : charLt c b = true
          · rw [Bool.eq_false_iff.mpr hbc, hcb] at h2
            simp at h2
          · have hbceq : b = c :=
              charLt_connex (Bool.eq_false_iff.mpr hbc) (Bool.eq_false_iff.mpr hcb)
            rw [Bool.eq_false_iff.mpr hbc, Bool.eq_false_iff.mpr hcb] at h2
            simp at h2
            have : charLt a c = false := by
              rw [habeq, hbceq]; exact charLt_irrefl c
            rw [habeq, hbceq, charLt_irrefl]
            simpa using lexLt_trans h1 h2

theorem lexLt_connex : ∀ {x y : List Char},
    lexLt x y = false → lexLt y x = false → x = y
  | [], [], _, _ => rfl
  | [], _ :: _, h1, _ => by rw [lexLt_nil_left] at h1; exact absurd h1 (by simp)
  | _ :: _, [], _, h2 => by rw [lexLt_nil_left] at h2; exact absurd h2 (by simp)
  | a :: as, b :: bs, h1, h2 => by
    rw [lexLt_cons_cons] at h1 h2
    by_cases hab : charLt a b = true
    · rw [hab] at h1; simp at h1
    · by_cases hba : charLt b a = true
      · rw [hba] at h2; simp at h2
      · have habeq : a = b :=
          charLt_connex (Bool.eq_false_iff.mpr hab) (Bool.eq_false_iff.mpr hba)
        rw [Bool.eq_false_iff.mpr hab, Bool.eq_false_iff.mpr hba] at h1 h2
        simp at h1 h2
        rw [habeq, lexLt_connex h1 h2]

theorem lexLt_append_left_self : ∀ (x t : List Char), lexLt (x ++ t) x = false
  | [], t => lexLt_nil_right t
  | a :: x, t => by
    rw [List.cons_append, lexLt_cons_cons, charLt_irrefl]
    simpa using lexLt_append_left_self x t

theorem lexLt_sandwich : ∀ (p q t : List Char),
    lexLt q p = false → lexLt (p ++ '.' :: t) q = false →
    q = p ∨ ∃ s, q = p ++ '.' :: s
  | [], [], _, _, _ => Or.inl rfl
  | [], c :: q', t, _, h2 => by
    rw [List.nil_append, lexLt_cons_cons] at h2
    by_cases hc : c = '.'
    · exact Or.inr ⟨q', by rw [hc, List.nil_append]⟩
    · have hdc : charLt '.' c = true := charLt_iff.mpr ⟨Or.inl rfl, hc⟩
      rw [hdc] at h2
      simp at h2
  | a :: p, [], _, h1, _ => by
    rw [lexLt_nil_left] at h1
    exact absurd h1 (by simp)
  | a :: p, c :: q', t, h1, h2 => by
    rw [lexLt_cons_cons] at h1
    rw [List.cons_append, lexLt_cons_cons] at h2
    by_cases hca : charLt c a = true
    · rw [hca] at h1; simp at h1
    · by_cases hac : charLt a c = true
      · rw [hac] at h2; simp at h2
      · have hceq : c = a :=
          charLt_connex (Bool.eq_false_iff.mpr hca) (Bool.eq_false_iff.mpr hac)
        rw [Bool.eq_false_iff.mpr hca, Bool.eq_false_iff.mpr hac] at h1
        rw [Bool.eq_false_iff.mpr hac, Bool.eq_false_iff.mpr hca] at h2
        simp at h1 h2
        rcases lexLt_sandwich p q' t h1 h2 with h | ⟨s, hs⟩
        · exact Or.inl (by rw [hceq, h])
        · exact Or.inr ⟨s, by rw [hceq, hs, List.cons_append]⟩

/-! ### The induced order on domains -/

theorem Domain.eq_of_name_eq : ∀ {a b : Domain}, a.domain_name = b.domain_name → a = b
  | ⟨_⟩, ⟨_⟩, rfl => rfl

theorem Domain.lt_irrefl (a : Domain) : Domain.lt a a = false :=
  lexLt_irrefl _

theorem Domain.lt_asymm {a b : Domain} (h : Domain.lt a b = true) :
    Domain.lt b a = false :=
  lexLt_asymm h

theorem Domain.lt_trans {a b c : Domain} (h1 : Domain.lt a b = true)
    (h2 : Domain.lt b c = true) : Domain.lt a c = true :=
  lexLt_trans h1 h2

theorem Domain.lt_connex {a b : Domain} (h1 : Domain.lt a b = false)
    (h2 : Domain.lt b a = false) : a = b :=
  Domain.eq_of_name_eq (List.reverse_inj.mp (lexLt_connex h1 h2))

theorem Domain.le_refl (a : Domain) : Domain.le a a :=
  Domain.lt_irrefl a

theorem Domain.le_trans {a b c : Domain} (h1 : Domain.le a b) (h2 : Domain.le b c) :
    Domain.le a c := by
  by_cases hca : Domain.lt c a = true
  · by_cases hbc : Domain.lt b c = true
    · exact absurd (Domain.lt_trans hbc hca) (Bool.eq_false_iff.mp h1)
    · have hbceq : b = c := Domain.lt_connex (Bool.eq_false_iff.mpr hbc) h2
      rw [← hbceq] at hca
      exact absurd hca (Bool.eq_false_iff.mp h1)
  · exact Bool.eq_false_iff.mpr hca

theorem Domain.le_total (a b : Domain) : Domain.le a b ∨ Domain.le b a := by
  by_cases h : Domain.lt b a = true
  · exact Or.inr (Domain.lt_asymm h)
  · exact Or.inl (Bool.eq_false_iff.mpr h)

instance : IsTrans Domain Domain.le :=
  ⟨fun _ _ _ => Domain.le_trans⟩

instance : IsTotal Domain Domain.le :=
  ⟨Domain.le_total⟩

/-! ### Characterization of `IsSubdomain` -/

theorem isSubdomain_iff_suffix {d p : Domain} :
    d.IsSubdomain p = true ↔ ('.' :: p.domain_name) <:+ ('.' :: d.domain_name) := by
  rw [Domain.IsSubdomain, Bool.and_eq_true, List.isSuffixOf_iff_suffix,
    decide_eq_true_iff]
  constructor
  · exact fun h => h.2
  · intro h
    refine ⟨?_, h⟩
    have := h.length_le
    simpa using this

theorem isSubdomain_iff_cases {d p : Domain} :
    d.IsSubdomain p = true ↔ (d = p ∨ ('.' :: p.domain_name) <:+ d.domain_name) := by
  rw [isSubdomain_iff_suffix, List.suffix_cons_iff]
  constructor
  · rintro (h | h)
    · refine Or.inl (Domain.eq_of_name_eq ?_)
      injection h with _ h2
      exact h2.symm
    · exact Or.inr h
  · rintro (h | h)
    · exact Or.inl (by rw [h])
    · exact Or.inr h

theorem Domain.isSubdomain_refl (d : Domain) : d.IsSubdomain d = true :=
  isSubdomain_iff_suffix.mpr (List.suffix_refl _)

theorem Domain.isSubdomain_trans {a b c : Domain} (h1 : a.IsSubdomain b = true)
    (h2 : b.IsSubdomain c = true) : a.IsSubdomain c = true :=
  isSubdomain_iff_suffix.mpr
    ((isSubdomain_iff_suffix.mp h2).trans (isSubdomain_iff_suffix.mp h1))

theorem reverse_name_of_sub {d p : Domain} (u : List Char)
    (hu : u ++ '.' :: p.domain_name = d.domain_name) :
    d.domain_name.reverse = p.domain_name.reverse ++ '.' :: u.reverse := by
  rw [← hu]
  simp

/-- A superdomain sorts no later than any of its subdomains: the key
compatibility between `Domain::operator<` and `Domain::IsSubdomain`. -/
theorem lt_eq_false_of_isSubdomain {d p : Domain} (h : d.IsSubdomain p = true) :
    Domain.lt d p = false := by
  rcases isSubdomain_iff_cases.mp h with h | ⟨u, hu⟩
  · rw [h]
    exact Domain.lt_irrefl p
  · rw [Domain.lt, reverse_name_of_sub u hu]
    exact lexLt_append_left_self _ _

/-- Any domain sorting between a domain and one of its subdomains is
itself a subdomain of that (ancestor) domain. -/
theorem isSubdomain_of_between {p q d : Domain} (hsub : d.IsSubdomain p = true)
    (h1 : Domain.lt q p = false) (h2 : Domain.lt d q = false) :
    q.IsSubdomain p = true := by
  rcases isSubdomain_iff_cases.mp hsub with h | ⟨u, hu⟩
  · rw [h] at h2
    rw [Domain.lt_connex h2 h1]
    exact Domain.isSubdomain_refl q
  · have h2' : lexLt (p.domain_name.reverse ++ '.' :: u.reverse)
        q.domain_name.reverse = false := by
      rw [← reverse_name_of_sub u hu]
      exact h2
    rcases lexLt_sandwich p.domain_name.reverse q.domain_name.reverse u.reverse
        h1 h2' with h | ⟨s, hs⟩
    · rw [Domain.eq_of_name_eq (List.reverse_inj.mp h)]
      exact Domain.isSubdomain_refl p
    · apply isSubdomain_iff_cases.mpr
      refine Or.inr ⟨s.reverse, ?_⟩
      have hq : q.domain_name = (p.domain_name.reverse ++ '.' :: s).reverse := by
        rw [← hs]
        simp
      rw [hq]
      simp

/-! ### Properties of the normalization pass -/

theorem sortDomains_sorted (l : List Domain) :
    List.Sorted Domain.le (sortDomains l) :=
  List.sorted_insertionSort Domain.le l

theorem sortDomains_perm (l : List Domain) : List.Perm (sortDomains l) l :=
  List.perm_insertionSort Domain.le l

theorem uniqueFrom_sublist : ∀ (last : Domain) (l : List Domain),
    List.Sublist (uniqueFrom last l) l
  | _, [] => List.Sublist.refl _
  | last, y :: ys => by
    show List.Sublist (if uniquePred last y = true then uniqueFrom last ys
      else y :: uniqueFrom y ys) (y :: ys)
    by_cases h : uniquePred last y = true
    · rw [if_pos h]
      exact (uniqueFrom_sublist last ys).cons y
    · rw [if_neg h]
      exact (uniqueFrom_sublist y ys).cons₂ y

theorem uniqueDomains_sublist : ∀ l : List Domain, List.Sublist (uniqueDomains l) l
  | [] => List.Sublist.refl _
  | a :: as => (uniqueFrom_sublist a as).cons₂ a

/-- When `std::unique` drops `y` against the kept element `last` that
sorts no later than it, `y` is in fact a subdomain of `last`. -/
theorem sub_of_uniquePred {last y : Domain} (h : uniquePred last y = true)
    (hle : Domain.le last y) : y.IsSubdomain last = true := by
  rw [uniquePred, Bool.or_eq_true] at h
  rcases h with h | h
  · have : last = y := Domain.lt_connex (lt_eq_false_of_isSubdomain h) hle
    rw [← this]
    exact Domain.isSubdomain_refl last
  · exact h

/-- Every element scanned by the `std::unique` pass is a subdomain of
some element that the pass keeps. -/
theorem uniqueFrom_covers : ∀ (last : Domain) (l : List Domain),
    List.Sorted Domain.le (last :: l) →
    ∀ x ∈ last :: l, ∃ k ∈ last :: uniqueFrom last l, x.IsSubdomain k = true
  | last, [], _, x, hx => by
    have hxl : x = last := by simpa using hx
    exact ⟨last, by simp, hxl ▸ Domain.isSubdomain_refl last⟩
  | last, y :: ys, hs, x, hx => by
    obtain ⟨hall, hyys⟩ := List.sorted_cons.mp hs
    by_cases h : uniquePred last y = true
    · have hres : uniqueFrom last (y :: ys) = uniqueFrom last ys := by
        show (if uniquePred last y = true then _ else _) = _
        rw [if_pos h]
      rw [hres]
      have hlys : List.Sorted Domain.le (last :: ys) :=
        List.sorted_cons.mpr
          ⟨fun b hb => hall b (List.mem_cons_of_mem y hb), hyys.of_cons⟩
      rcases List.mem_cons.mp hx with hxl | hx2
      · exact uniqueFrom_covers last ys hlys x (by simp [hxl])
      · rcases List.mem_cons.mp hx2 with hxy | hxys
        · exact ⟨last, by simp,
            hxy ▸ sub_of_uniquePred h (hall y (by simp))⟩
        · exact uniqueFrom_covers last ys hlys x
            (List.mem_cons_of_mem last hxys)
    · have hres : uniqueFrom last (y :: ys) = y :: uniqueFrom y ys := by
        show (if uniquePred last y = true then _ else _) = _
        rw [if_neg h]
      rw [hres]
      rcases List.mem_cons.mp hx with hxl | hx2
      · exact ⟨last, by simp, hxl ▸ Domain.isSubdomain_refl last⟩
      · obtain ⟨k, hk, hsub⟩ := uniqueFrom_covers y ys hyys x hx2
        exact ⟨k, List.mem_cons_of_mem last hk, hsub⟩

theorem uniqueDomains_covers (l : List Domain)
    (hs : List.Sorted Domain.le l) :
    ∀ x ∈ l, ∃ k ∈ uniqueDomains l, x.IsSubdomain k = true := by
  cases l with
  | nil => intro x hx; exact absurd hx (List.not_mem_nil x)
  | cons a as => exact fun x hx => uniqueFrom_covers a as hs x hx

theorem uniqueFrom_chain : ∀ (last : Domain) (l : List Domain),
    List.Chain (fun a b => uniquePred a b = false) last (uniqueFrom last l)
  | _, [] => List.Chain.nil
  | last, y :: ys => by
    by_cases h : uniquePred last y = true
    · have hres : uniqueFrom last (y :: ys) = uniqueFrom last ys := by
        show (if uniquePred last y = true then _ else _) = _
        rw [if_pos h]
      rw [hres]
      exact uniqueFrom_chain last ys
    · have hres : uniqueFrom last (y :: ys) = y :: uniqueFrom y ys := by
        show (if uniquePred last y = true then _ else _) = _
        rw [if_neg h]
      rw [hres]
      exact List.Chain.cons (Bool.eq_false_iff.mpr h) (uniqueFrom_chain y ys)

theorem uniqueDomains_chain' (l : List Domain) :
    List.Chain' (fun a b => uniquePred a b = false) (uniqueDomains l) := by
  cases l with
  | nil => exact List.chain'_nil
  | cons a as => exact uniqueFrom_chain a as

/-- On a sorted list whose consecutive elements never satisfy the
`std::unique` predicate, no element is a subdomain of another and the
list is strictly ascending. -/
theorem pairwise_of_sorted_chain : ∀ {o : List Domain},
    List.Sorted Domain.le o →
    List.Chain' (fun a b => uniquePred a b = false) o →
    List.Pairwise (fun a b => Domain.lt a b = true ∧
      a.IsSubdomain b = false ∧ b.IsSubdomain a = false) o
  | [], _, _ => List.Pairwise.nil
  | k :: rest, hs, hc => by
    obtain ⟨hall, hrest⟩ := List.sorted_cons.mp hs
    refine List.Pairwise.cons ?_ (pairwise_of_sorted_chain hrest hc.tail)
    intro b hb
    cases rest with
    | nil => exact absurd hb (List.not_mem_nil b)
    | cons k₁ rest' =>
      obtain ⟨hpred, _⟩ := List.chain'_cons.mp hc
      have hkk₁ : Domain.le k k₁ := hall k₁ (by simp)
      have hk₁b : Domain.le k₁ b := by
        rcases List.mem_cons.mp hb with hbk | hbmem
        · rw [hbk]
          exact Domain.le_refl k₁
        · exact List.rel_of_sorted_cons hrest b hbmem
      have hbk : b.IsSubdomain k = false := by
        apply Bool.eq_false_iff.mpr
        intro hsub
        have : k₁.IsSubdomain k = true :=
          isSubdomain_of_between hsub hkk₁ hk₁b
        have : uniquePred k k₁ = true := by
          rw [uniquePred, Bool.or_eq_true]
          exact Or.inr this
        rw [this] at hpred
        exact Bool.noConfusion hpred
      have hkb : k.IsSubdomain b = false := by
        apply Bool.eq_false_iff.mpr
        intro hsub
        have hbk' : Domain.le b k := lt_eq_false_of_isSubdomain hsub
        have hkeqb : k = b :=
          Domain.lt_connex hbk' (Domain.le_trans hkk₁ hk₁b)
        rw [← hkeqb] at hbk
        rw [Domain.isSubdomain_refl k] at hbk
        exact Bool.noConfusion hbk
      refine ⟨?_, hkb, hbk⟩
      by_cases hlt : Domain.lt k b = true
      · exact hlt
      · have hkeqb : k = b :=
          Domain.lt_connex (Bool.eq_false_iff.mpr hlt)
            (Domain.le_trans hkk₁ hk₁b)
      -- k = b contradicts hbk via reflexivity
        rw [← hkeqb, Domain.isSubdomain_refl k] at hbk
        exact Bool.noConfusion hbk

theorem prepare_sorted (l : List Domain) :
    List.Sorted Domain.le (PrepareForbiddenDomains l) :=
  List.Pairwise.sublist (uniqueDomains_sublist _) (sortDomains_sorted l)

theorem prepare_pairwise (l : List Domain) :
    List.Pairwise (fun a b => Domain.lt a b = true ∧
      a.IsSubdomain b = false ∧ b.IsSubdomain a = false)
      (PrepareForbiddenDomains l) :=
  pairwise_of_sorted_chain (prepare_sorted l) (uniqueDomains_chain' _)

/-- Normalization preserves the covered set: a query is a subdomain of
some entry of `PrepareForbiddenDomains l` exactly when it is a
subdomain of some entry of `l`. -/
theorem prepare_exists_iff (l : List Domain) (q : Domain) :
    (∃ k ∈ PrepareForbiddenDomains l, q.IsSubdomain k = true) ↔
    (∃ d ∈ l, q.IsSubdomain d = true) := by
  constructor
  · rintro ⟨k, hk, hsub⟩
    have hks : k ∈ sortDomains l := (uniqueDomains_sublist _).subset hk
    exact ⟨k, (sortDomains_perm l).mem_iff.mp hks, hsub⟩
  · rintro ⟨d, hd, hsub⟩
    have hd' : d ∈ sortDomains l := (sortDomains_perm l).mem_iff.mpr hd
    obtain ⟨k, hk, hdk⟩ :=
      uniqueDomains_covers (sortDomains l) (sortDomains_sorted l) d hd'
    exact ⟨k, hk, Domain.isSubdomain_trans hsub hdk⟩

/-! ### Correctness of the upper-bound lookup -/

theorem mem_takeWhile_of_le {q k : Domain} : ∀ {l : List Domain},
    List.Sorted Domain.le l → k ∈ l → Domain.lt q k = false →
    k ∈ l.takeWhile (fun x => !(Domain.lt q x))
  | [], _, hm, _ => absurd hm (List.not_mem_nil k)
  | x :: xs, hs, hm, hk => by
    obtain ⟨hall, hxs⟩ := List.sorted_cons.mp hs
    have hx : Domain.lt q x = false := by
      rcases List.mem_cons.mp hm with hkx | hkxs
      · rw [← hkx]; exact hk
      · exact Domain.le_trans (hall k hkxs) hk
    rw [List.takeWhile_cons_of_pos (by simp [hx])]
    rcases List.mem_cons.mp hm with hkx | hkxs
    · rw [hkx]; exact List.mem_cons_self x _
    · exact List.mem_cons_of_mem x (mem_takeWhile_of_le hxs hkxs hk)

theorem le_getLast_of_sorted : ∀ {l : List Domain},
    List.Sorted Domain.le l → ∀ {k}, k ∈ l → ∀ {L}, l.getLast? = some L →
    Domain.le k L
  | [], _, k, hm, _, _ => absurd hm (List.not_mem_nil k)
  | [x], _, k, hm, L, hL => by
    have hkx : k = x := by simpa using hm
    have hLx : L = x := by simpa using hL.symm
    rw [hkx, hLx]
    exact Domain.le_refl x
  | x :: y :: tl, hs, k, hm, L, hL => by
    rw [List.getLast?_cons_cons] at hL
    obtain ⟨hall, htl⟩ := List.sorted_cons.mp hs
    rcases List.mem_cons.mp hm with hkx | hkm
    · rw [hkx]
      exact hall L (List.mem_of_getLast?_eq_some hL)
    · exact le_getLast_of_sorted htl hkm hL

/-- Correctness of `DomainChecker::IsForbidden` on a forbidden list that
satisfies the construction invariant (sorted, no subdomain pairs): the
single candidate test is equivalent to existence of a covering entry. -/
theorem isForbidden_iff_exists_mem {o : List Domain}
    (hs : List.Sorted Domain.le o)
    (hp : List.Pairwise (fun a b => Domain.lt a b = true ∧
      a.IsSubdomain b = false ∧ b.IsSubdomain a = false) o)
    (q : Domain) :
    DomainChecker.IsForbidden ⟨o⟩ q = true ↔ ∃ k ∈ o, q.IsSubdomain k = true := by
  rw [DomainChecker.IsForbidden]
  constructor
  · intro h
    split at h
    · exact absurd h (by simp)
    · rename_i cand hcand
      exact ⟨cand,
        (List.takeWhile_sublist _).subset (List.mem_of_getLast?_eq_some hcand), h⟩
  · rintro ⟨k, hk, hqk⟩
    have hlek : Domain.lt q k = false := lt_eq_false_of_isSubdomain hqk
    have hmem := mem_takeWhile_of_le hs hk hlek
    rcases hgl : (o.takeWhile (fun x => !(Domain.lt q x))).getLast? with _ | L
    · rw [List.getLast?_eq_none_iff] at hgl
      rw [hgl] at hmem
      exact absurd hmem (List.not_mem_nil k)
    · have hLmem : L ∈ o.takeWhile (fun x => !(Domain.lt q x)) :=
        List.mem_of_getLast?_eq_some hgl
      have hLo : L ∈ o := (List.takeWhile_sublist _).subset hLmem
      have hko : k ∈ o := hk
      have hLq : Domain.lt q L = false := by
        have := List.mem_takeWhile_imp hLmem
        simpa using this
      have hkL : Domain.le k L :=
        le_getLast_of_sorted
          (List.Pairwise.sublist (List.takeWhile_sublist _) hs) hmem hgl
      have hLk : L.IsSubdomain k = true :=
        isSubdomain_of_between hqk hkL hLq
      have hLeqk : L = k := by
        by_cases hne : L = k
        · exact hne
        · have hSym : List.Pairwise (fun a b => a = b ∨
              (a.IsSubdomain b = false ∧ b.IsSubdomain a = false)) o :=
            hp.imp (fun h => Or.inr ⟨h.2.1, h.2.2⟩)
          have hforall := hSym.forall
            (fun a b hab => hab.elim (fun h => Or.inl h.symm)
              (fun h => Or.inr ⟨h.2, h.1⟩)) hLo hko hne
          rcases hforall with h | h
          · exact h
          · rw [h.1] at hLk
            exact Bool.noConfusion hLk
      show q.IsSubdomain L = true
      rw [hLeqk]
      exact hqk

/-- Top-level correctness of a freshly constructed checker. -/
theorem ofList_isForbidden_iff (l : List Domain) (q : Domain) :
    (DomainChecker.ofList l).IsForbidden q = true ↔
    ∃ d ∈ l, q.IsSubdomain d = true := by
  rw [DomainChecker.ofList]
  rw [isForbidden_iff_exists_mem (prepare_sorted l) (prepare_pairwise l) q]
  exact prepare_exists_iff l q

theorem isForbidden_congr {l₁ l₂ : List Domain}
    (h : ∀ d, d ∈ l₁ ↔ d ∈ l₂) (q : Domain) :
    (DomainChecker.ofList l₁).IsForbidden q =
    (DomainChecker.ofList l₂).IsForbidden q := by
  by_cases h1 : (DomainChecker.ofList l₁).IsForbidden q = true
  · rw [h1]
    obtain ⟨d, hd, hsub⟩ := (ofList_isForbidden_iff l₁ q).mp h1
    exact ((ofList_isForbidden_iff l₂ q).mpr ⟨d, (h d).mp hd, hsub⟩).symm
  · rw [Bool.eq_false_iff.mpr h1]
    symm
    apply Bool.eq_false_iff.mpr
    intro h2
    obtain ⟨d, hd, hsub⟩ := (ofList_isForbidden_iff l₂ q).mp h2
    exact h1 ((ofList_isForbidden_iff l₁ q).mpr ⟨d, (h d).mpr hd, hsub⟩)

/-- Checkers built from block-lists that cover each other (every entry of
one is a subdomain of an entry of the other) answer identically. -/
theorem isForbidden_cover_congr {l₁ l₂ : List Domain}
    (h12 : ∀ d ∈ l₁, ∃ k ∈ l₂, d.IsSubdomain k = true)
    (h21 : ∀ d ∈ l₂, ∃ k ∈ l₁, d.IsSubdomain k = true) (q : Domain) :
    (DomainChecker.ofList l₁).IsForbidden q =
    (DomainChecker.ofList l₂).IsForbidden q := by
  by_cases h1 : (DomainChecker.ofList l₁).IsForbidden q = true
  · obtain ⟨d, hd, hs⟩ := (ofList_isForbidden_iff l₁ q).mp h1
    obtain ⟨k, hk, hdk⟩ := h12 d hd
    rw [h1, (ofList_isForbidden_iff l₂ q).mpr
      ⟨k, hk, Domain.isSubdomain_trans hs hdk⟩]
  · rw [Bool.eq_false_iff.mpr h1]
    symm
    apply Bool.eq_false_iff.mpr
    intro h2
    obtain ⟨d, hd, hs⟩ := (ofList_isForbidden_iff l₂ q).mp h2
    obtain ⟨k, hk, hdk⟩ := h21 d hd
    exact h1 ((ofList_isForbidden_iff l₁ q).mpr
      ⟨k, hk, Domain.isSubdomain_trans hs hdk⟩)

/-! ### The empty-string entry -/

theorem singleton_suffix_iff_getLast? {a : Char} {l : List Char} :
    [a] <:+ l ↔ l.getLast? = some a := by
  rw [List.getLast?_eq_some_iff]
  constructor
  · rintro ⟨t, ht⟩
    exact ⟨t, ht.symm⟩
  · rintro ⟨t, ht⟩
    exact ⟨t, ht.symm⟩

theorem sub_empty_iff (q : Domain) :
    q.IsSubdomain (Domain.mk []) = true ↔
    (q.domain_name = [] ∨ q.domain_name.getLast? = some '.') := by
  rw [isSubdomain_iff_suffix]
  show ['.'] <:+ ('.' :: q.domain_name) ↔ _
  rw [singleton_suffix_iff_getLast?]
  cases hq : q.domain_name with
  | nil => simp
  | cons c cs =>
    rw [List.getLast?_cons_cons]
    simp

/-! ## The claims -/

/-- C1: `IsForbidden(query)` returns true iff the query equals or is a
subdomain of some entry of the normalized forbidden set — equivalently,
of some domain of the original input — and a checker built from the
empty sequence reports every query as not forbidden. -/
theorem C1_isForbidden_correct (l : List Domain) (q : Domain) :
    ((DomainChecker.ofList l).IsForbidden q = true ↔
      ∃ k ∈ (DomainChecker.ofList l).forbidden_domains, q.IsSubdomain k = true) ∧
    ((DomainChecker.ofList l).IsForbidden q = true ↔
      ∃ d ∈ l, q.IsSubdomain d = true) ∧
    (DomainChecker.ofList []).IsForbidden q = false := by
  refine ⟨?_, ofList_isForbidden_iff l q, ?_⟩
  · exact isForbidden_iff_exists_mem (prepare_sorted l) (prepare_pairwise l) q
  · apply Bool.eq_false_iff.mpr
    intro h
    obtain ⟨d, hd, _⟩ := (ofList_isForbidden_iff [] q).mp h
    exact absurd hd (List.not_mem_nil d)

/-- C2: after construction the stored forbidden sequence equals the result
of `PrepareForbiddenDomains`, is strictly ascending in the suffix
ordering, and contains no two elements where one is a subdomain of the
other; the only later operation, `IsForbidden`, is a pure function that
leaves the stored value untouched. -/
theorem C2_forbidden_invariant (l : List Domain) :
    (DomainChecker.ofList l).forbidden_domains = PrepareForbiddenDomains l ∧
    List.Pairwise (fun a b => Domain.lt a b = true ∧
      a.IsSubdomain b = false ∧ b.IsSubdomain a = false)
      ((DomainChecker.ofList l).forbidden_domains) :=
  ⟨rfl, prepare_pairwise l⟩

/-- C3: `IsSubdomain` holds iff the two names are equal or the left name
ends with `"." + right name`; hence it is reflexive, prepending a label
`a + "."` preserves it, and `"xp"` is not a subdomain of `"p"` (no dot
boundary). -/
theorem C3_isSubdomain_suffix_law :
    (∀ a b : Domain, a.IsSubdomain b = true ↔
      (a = b ∨ ('.' :: b.domain_name) <:+ a.domain_name)) ∧
    (∀ d : Domain, d.IsSubdomain d = true) ∧
    (∀ a p : List Char, a ≠ [] → p ≠ [] →
      (Domain.mk (a ++ '.' :: p)).IsSubdomain (Domain.mk p) = true) ∧
    (Domain.ofString "xp").IsSubdomain (Domain.ofString "p") = false := by
  refine ⟨fun a b => isSubdomain_iff_cases, Domain.isSubdomain_refl, ?_, by decide⟩
  intro a p _ _
  exact isSubdomain_iff_cases.mpr (Or.inr ⟨a, rfl⟩)

/-- Witness for C3: the label-prepend law at `a = "m"`, `p = "ru"`. -/
theorem C3_witness :
    (['m'] : List Char) ≠ [] ∧ (['r', 'u'] : List Char) ≠ [] ∧
    (Domain.mk (['m'] ++ '.' :: ['r', 'u'])).IsSubdomain
      (Domain.mk ['r', 'u']) = true :=
  ⟨by decide, by decide,
    C3_isSubdomain_suffix_law.2.2.1 ['m'] ['r', 'u'] (by decide) (by decide)⟩

/-- C4: if `d` is a subdomain of `p` (so `p` is a superdomain of `d`),
then `p` sorts less than or equal to `d` in the Domain ordering. -/
theorem C4_superdomain_sorts_le (d p : Domain)
    (h : d.IsSubdomain p = true) : Domain.le p d :=
  lt_eq_false_of_isSubdomain h

/-- Witness for C4 at `d = "duck.com"`, `p = "com"`. -/
theorem C4_witness :
    (Domain.ofString "duck.com").IsSubdomain (Domain.ofString "com") = true ∧
    Domain.le (Domain.ofString "com") (Domain.ofString "duck.com") :=
  ⟨by decide, C4_superdomain_sorts_le _ _ (by decide)⟩

/-- C5 (counterexample): the claimed chain fails at its first link:
`Domain("gdz.ru") < Domain("gdz.ua")` does not hold in the code's order
(comparison starts at the last character, and `'a' < 'u'`). -/
theorem C5_counterexample :
    ¬ (Domain.lt (Domain.ofString "gdz.ru") (Domain.ofString "gdz.ua") = true ∧
       Domain.lt (Domain.ofString "gdz.ua") (Domain.ofString "maps.com") = true) := by
  decide

/-- C5 (amended): the concrete chain the ordering produces is
`gdz.ua < maps.com < gdz.ru`; of the claimed links only
`gdz.ua < maps.com` holds, and `gdz.ru < gdz.ua` is false. -/
theorem C5_amended_chain :
    Domain.lt (Domain.ofString "gdz.ua") (Domain.ofString "maps.com") = true ∧
    Domain.lt (Domain.ofString "maps.com") (Domain.ofString "gdz.ru") = true ∧
    Domain.lt (Domain.ofString "gdz.ru") (Domain.ofString "gdz.ua") = false := by
  decide

/-- C6: adding duplicates or subdomains of listed entries does not change
the checker: `[d, d, d]` behaves as `[d]`, and `["com", "gdz.com"]`
behaves as `["com"]`, for every query. -/
theorem C6_redundant_entries (d q : Domain) :
    (DomainChecker.ofList [d, d, d]).IsForbidden q =
      (DomainChecker.ofList [d]).IsForbidden q ∧
    (DomainChecker.ofList
        [Domain.ofString "com", Domain.ofString "gdz.com"]).IsForbidden q =
      (DomainChecker.ofList [Domain.ofString "com"]).IsForbidden q := by
  constructor
  · exact isForbidden_congr (fun x => by simp) q
  · apply isForbidden_cover_congr ?_ ?_ q
    · intro e he
      rcases List.mem_cons.mp he with h | h
      · exact ⟨Domain.ofString "com", by simp, by rw [h]; decide⟩
      · have he2 : e = Domain.ofString "gdz.com" := by simpa using h
        exact ⟨Domain.ofString "com", by simp, by rw [he2]; decide⟩
    · intro e he
      have he2 : e = Domain.ofString "com" := by simpa using he
      exact ⟨Domain.ofString "com", by simp, by rw [he2]; decide⟩

/-- C7: the end-to-end scenario: block-list
`["gdz.ru", "maps.me", "m.gdz.ru", "com"]` and the seven queries produce
`Bad, Bad, Bad, Bad, Bad, Good, Good` in order. -/
theorem C7_end_to_end :
    runQueries
      (DomainChecker.ofList
        [Domain.ofString "gdz.ru", Domain.ofString "maps.me",
         Domain.ofString "m.gdz.ru", Domain.ofString "com"])
      [Domain.ofString "gdz.ru", Domain.ofString "gdz.com",
       Domain.ofString "m.maps.me", Domain.ofString "alg.m.gdz.ru",
       Domain.ofString "maps.com", Domain.ofString "maps.ru",
       Domain.ofString "gdz.ua"] =
    ["Bad", "Bad", "Bad", "Bad", "Bad", "Good", "Good"] := by
  decide

/-- C8: totality of the core operations in the embedding: domain
construction stores any string verbatim (including the empty string),
checker construction accepts any list (including the empty one), and
`IsForbidden` always returns one of the two booleans; no operation has
an error outcome. -/
theorem C8_total_operations :
    (∀ s : String, (Domain.ofString s).domain_name = s.toList) ∧
    ((Domain.ofString "").domain_name = []) ∧
    (DomainChecker.ofList [] = ⟨[]⟩) ∧
    (∀ (l : List Domain) (q : Domain),
      (DomainChecker.ofList l).IsForbidden q = true ∨
      (DomainChecker.ofList l).IsForbidden q = false) :=
  ⟨fun _ => rfl, rfl, rfl, fun l q =>
    ((DomainChecker.ofList l).IsForbidden q).eq_false_or_eq_true⟩

/-- C9: the i-th output token is the verdict for the i-th query, and the
results are invariant under permutation or duplication of the
block-list: any two block-lists with the same members give identical
outputs for every query sequence. -/
theorem C9_order_and_blocklist_invariance :
    (∀ (c : DomainChecker) (qs : List Domain) (i : Nat),
      (runQueries c qs)[i]? =
        (qs[i]?).map (fun d => if c.IsForbidden d then "Bad" else "Good")) ∧
    (∀ bl₁ bl₂ : List Domain, (∀ d, d ∈ bl₁ ↔ d ∈ bl₂) →
      ∀ qs : List Domain,
        runQueries (DomainChecker.ofList bl₁) qs =
        runQueries (DomainChecker.ofList bl₂) qs) := by
  constructor
  · intro c qs i
    simp [runQueries]
  · intro bl₁ bl₂ h qs
    unfold runQueries
    congr 1
    funext d
    rw [isForbidden_congr h d]

/-- Witness for C9: a duplicated block-list entry gives the same output. -/
theorem C9_witness :
    runQueries (DomainChecker.ofList [Domain.ofString "com"])
      [Domain.ofString "maps.com"] =
    runQueries
      (DomainChecker.ofList [Domain.ofString "com", Domain.ofString "com"])
      [Domain.ofString "maps.com"] :=
  C9_order_and_blocklist_invariance.2 _ _ (fun d => by simp) _

/-- C10: a block-list entry with the empty-string name does not forbid
every query: a domain counts as its "subdomain" iff its name is empty or
ends with `'.'`, so a nonempty query not ending in `'.'` is not
forbidden by the block-list containing only the empty string. -/
theorem C10_empty_entry :
    (∀ q : Domain, q.IsSubdomain (Domain.mk []) = true ↔
      (q.domain_name = [] ∨ q.domain_name.getLast? = some '.')) ∧
    (∀ q : Domain, q.domain_name ≠ [] → q.domain_name.getLast? ≠ some '.' →
      (DomainChecker.ofList [Domain.mk []]).IsForbidden q = false) := by
  refine ⟨sub_empty_iff, ?_⟩
  intro q h1 h2
  apply Bool.eq_false_iff.mpr
  intro htrue
  obtain ⟨d, hd, hsub⟩ := (ofList_isForbidden_iff _ q).mp htrue
  have hde : d = Domain.mk [] := by simpa using hd
  rw [hde] at hsub
  rcases (sub_empty_iff q).mp hsub with h | h
  · exact h1 h
  · exact h2 h

/-- Witness for C10 at the query `"x"`. -/
theorem C10_witness :
    (Domain.ofString "x").domain_name ≠ [] ∧
    (Domain.ofString "x").domain_name.getLast? ≠ some '.' ∧
    (DomainChecker.ofList [Domain.mk []]).IsForbidden
      (Domain.ofString "x") = false :=
  ⟨by decide, by decide,
    C10_empty_entry.2 (Domain.ofString "x") (by decide) (by decide)⟩

end DomainFilter
